import Mathlib

/-!
# Verification of the `binary` Merkle hash tree package

Shallow embedding of `binary/binary.go` (package `binary` of
`lynn9388/merkletree`). Byte strings are modelled as `List Nat`; the SHA-256
function `hash` of the Go code is an abstract parameter `H : ByteStr → ByteStr`
(SHA-256 guarantees used by individual theorems — 32-byte output, bytes below
256 — appear as explicit hypotheses on `H` where needed). Fallible or panicking
Go code is modelled with `Except`/`Option`: `Option.none` stands for a Go
runtime panic.
-/

namespace Binary

/-- A byte string (`[]byte` in Go); entries are byte values. -/
abbrev ByteStr : Type := List Nat

/-- `const left = iota` — the `left` order tag (0). -/
def leftOrder : Nat := 0

/-- `const right = iota` — the `right` order tag (1). -/
def rightOrder : Nat := 1

/-- `MerkleTree` from `binary.go`: a node holds a hash and either no children
(a leaf) or two children. `New` only ever produces nodes with zero or exactly
two children, which this inductive captures directly; the `Parent` back
pointer of the Go struct is not representable in an inductive tree and is
treated separately by the heap model below (`subTreeH`). -/
inductive MerkleTree where
  | lf (h : ByteStr)
  | nd (l r : MerkleTree) (h : ByteStr)
deriving DecidableEq, Repr

namespace MerkleTree

/-- The `Hash` field of a node. -/
def hashv : MerkleTree → ByteStr
  | .lf h => h
  | .nd _ _ h => h

/-- Hash of the `Left` child (junk value on a leaf; only used on inner nodes). -/
def leftHash : MerkleTree → ByteStr
  | .lf h => h
  | .nd l _ _ => l.hashv

/-- Hash of the `Right` child (junk value on a leaf; only used on inner nodes). -/
def rightHash : MerkleTree → ByteStr
  | .lf h => h
  | .nd _ r _ => r.hashv

end MerkleTree

/-!
## The split point of `New`

`New` splits `n > 1` blocks at `k := int(math.Exp2(math.Ceil(math.Log2(float64(n)) - 1)))`.
For every feasible slice length this float expression computes the largest
power of two strictly below `n`, which we embed exactly as
`2 ^ Nat.log2 (n - 1)`.
-/

/-- The split index of `New` for `n` blocks: the largest power of two
strictly less than `n` (for `n ≥ 2`). -/
def splitPoint (n : Nat) : Nat := 2 ^ Nat.log2 (n - 1)

theorem splitPoint_lt {n : Nat} (h : 2 ≤ n) : splitPoint n < n := by
  have h1 : n - 1 ≠ 0 := by omega
  have := Nat.log2_self_le h1
  unfold splitPoint
  omega

theorem splitPoint_pos (n : Nat) : 0 < splitPoint n := Nat.pos_pow_of_pos _ (by omega)

theorem splitPoint_max {n j : Nat} (hj : 2 ^ j < n) : 2 ^ j ≤ splitPoint n := by
  have hm : n - 1 ≠ 0 := by
    intro h0
    have : n ≤ 1 := by omega
    have : 2 ^ j ≥ 1 := Nat.one_le_two_pow
    omega
  have hle : 2 ^ j ≤ n - 1 := by omega
  have : j ≤ Nat.log2 (n - 1) := by
    by_contra hgt
    push_neg at hgt
    have h2 : 2 ^ (Nat.log2 (n - 1) + 1) ≤ 2 ^ j :=
      Nat.pow_le_pow_right (by omega) (by omega)
    have h3 := Nat.lt_log2_self (n := n - 1)
    omega
  calc 2 ^ j ≤ 2 ^ Nat.log2 (n - 1) := Nat.pow_le_pow_right (by omega) this
    _ = splitPoint n := rfl

/-!
## `New` — the tree builder

Go (binary.go, `New`):

```go
func New(data ...[]byte) *MerkleTree {
    n := len(data)
    if n == 0 { return &MerkleTree{Hash: hash([]byte{})} }
    var subTree func([][]byte) *MerkleTree
    subTree = func(data [][]byte) *MerkleTree {
        n := len(data)
        if n == 1 { return &MerkleTree{Hash: hash(data[0])} }
        parent := &MerkleTree{}
        k := int(math.Exp2(math.Ceil(math.Log2(float64(n)) - 1)))
        left := subTree(data[0:k]); right := subTree(data[k:n])
        left.Parent = parent; right.Parent = parent
        parent.Left = left; parent.Right = right
        parent.Hash = hash(append(left.Hash, right.Hash...))
        return parent
    }
    return subTree(data)
}
```

`subTree` is never called on an empty slice (`New` handles `n = 0` and the
split leaves both halves non-empty), so the `data.length < 2` guard below
merges the unreachable empty case with the `n == 1` leaf case.
-/

/-- The inner `subTree` closure of `New`. -/
def subTree (H : ByteStr → ByteStr) (data : List ByteStr) : MerkleTree :=
  if h : data.length < 2 then
    .lf (H (data.headD []))
  else
    let k := splitPoint data.length
    let l := subTree H (data.take k)
    let r := subTree H (data.drop k)
    .nd l r (H (l.hashv ++ r.hashv))
termination_by data.length
decreasing_by
  · simp only [List.length_take]
    have h1 := splitPoint_lt (n := data.length) (by omega)
    have h2 := splitPoint_pos data.length
    omega
  · simp only [List.length_drop]
    have h1 := splitPoint_lt (n := data.length) (by omega)
    have h2 := splitPoint_pos data.length
    omega

/-- `New`: empty input yields the single node hashing the empty byte string,
otherwise defer to `subTree`. -/
def New (H : ByteStr → ByteStr) (data : List ByteStr) : MerkleTree :=
  match data with
  | [] => .lf (H [])
  | _ :: _ => subTree H data

theorem New_eq_subTree (H : ByteStr → ByteStr) {data : List ByteStr}
    (h : data ≠ []) : New H data = subTree H data := by
  cases data with
  | nil => exact absurd rfl h
  | cons a l => rfl

/-- The parenthesis shape of a tree, forgetting all hash values. -/
inductive Shape where
  | l
  | p (a b : Shape)
deriving DecidableEq, Repr

/-- Erase hashes, keep the shape. -/
def shapeOf : MerkleTree → Shape
  | .lf _ => .l
  | .nd a b _ => .p (shapeOf a) (shapeOf b)

end Binary

namespace Binary

theorem take_ne_nil {k : Nat} {data : List ByteStr} (hk : 0 < k)
    (hd : 0 < data.length) : data.take k ≠ [] := by
  apply List.length_pos.mp
  simp only [List.length_take]
  omega

theorem drop_ne_nil {k : Nat} {data : List ByteStr} (hk : k < data.length) :
    data.drop k ≠ [] := by
  apply List.length_pos.mp
  simp only [List.length_drop]
  omega

/-- **C1.** For `n > 1` blocks, `New` splits at `k` = the largest power of two
strictly below `n` (`splitPoint`), builds the left subtree over `blocks[0:k]`
and the right over `blocks[k:n]`, and hashes the raw concatenation of the two
child hashes; the shapes for n = 2, 3, 4, 7 are `(a,b)`, `((a,b),c)`,
`((a,b),(c,d))` and `(((a,b),(c,d)),((e,f),g))`. -/
theorem claim1_new_balanced_split (H : ByteStr → ByteStr) (data : List ByteStr)
    (hn : 2 ≤ data.length) (a b c d e f g : ByteStr) :
    (New H data = .nd (New H (data.take (splitPoint data.length)))
        (New H (data.drop (splitPoint data.length)))
        (H ((New H (data.take (splitPoint data.length))).hashv ++
            (New H (data.drop (splitPoint data.length))).hashv))) ∧
    (splitPoint data.length < data.length ∧
      ∀ j, 2 ^ j < data.length → 2 ^ j ≤ splitPoint data.length) ∧
    shapeOf (New H [a, b]) = .p .l .l ∧
    shapeOf (New H [a, b, c]) = .p (.p .l .l) .l ∧
    shapeOf (New H [a, b, c, d]) = .p (.p .l .l) (.p .l .l) ∧
    shapeOf (New H [a, b, c, d, e, f, g]) =
      .p (.p (.p .l .l) (.p .l .l)) (.p (.p .l .l) .l) := by
  have hk1 : 0 < splitPoint data.length := splitPoint_pos _
  have hk2 : splitPoint data.length < data.length := splitPoint_lt hn
  refine ⟨?_, ⟨hk2, fun j hj => splitPoint_max hj⟩, ?_, ?_, ?_, ?_⟩
  · rw [New_eq_subTree H (List.length_pos.mp (by omega))]
    rw [New_eq_subTree H (take_ne_nil hk1 (by omega)),
        New_eq_subTree H (drop_ne_nil hk2)]
    rw [subTree]
    rw [dif_neg (by omega)]
  · simp [New, subTree, splitPoint, Nat.log2, shapeOf]
  · simp [New, subTree, splitPoint, Nat.log2, shapeOf]
  · simp [New, subTree, splitPoint, Nat.log2, shapeOf]
  · simp [New, subTree, splitPoint, Nat.log2, shapeOf]

/-- Witness for C1 at `data = [[0],[1],[2]]`, `H = id`. -/
theorem claim1_new_balanced_split_witness :
    (2 ≤ ([[0], [1], [2]] : List ByteStr).length) ∧
    New id [[0], [1], [2]] =
      .nd (New id (([[0], [1], [2]] : List ByteStr).take (splitPoint 3)))
        (New id (([[0], [1], [2]] : List ByteStr).drop (splitPoint 3)))
        (id ((New id (([[0], [1], [2]] : List ByteStr).take (splitPoint 3))).hashv ++
            (New id (([[0], [1], [2]] : List ByteStr).drop (splitPoint 3))).hashv)) := by
  refine ⟨by decide, ?_⟩
  exact (claim1_new_balanced_split id [[0], [1], [2]] (by decide)
    [] [] [] [] [] [] []).1

end Binary

namespace Binary

/-- **C6.** `New` on zero blocks returns a single node whose hash is
`H` of the empty byte string; `New` on one block `[a]` returns a single
leaf whose hash is `H a`. -/
theorem claim6_empty_and_singleton (H : ByteStr → ByteStr) (a : ByteStr) :
    New H [] = .lf (H []) ∧ (New H []).hashv = H [] ∧
    New H [a] = .lf (H a) ∧ (New H [a]).hashv = H a := by
  have h1 : New H [a] = .lf (H a) := by
    rw [New_eq_subTree H (by simp), subTree]
    simp
  exact ⟨rfl, rfl, h1, by rw [h1]; rfl⟩

/-!
## `findLeaf`, `GetAuditPath`, `IsValid`

Go (binary.go):

```go
func (mt *MerkleTree) findLeaf(hash []byte) *MerkleTree {
    if mt == nil { return nil }
    if mt.Left == nil && mt.Right == nil && bytes.Equal(mt.Hash, hash) { return mt }
    leaf := mt.Left.findLeaf(hash)
    if leaf == nil { leaf = mt.Right.findLeaf(hash) }
    return leaf
}
```

A node pointer into a tree is modelled as the list of directions from the
root to that node, so `findLeaf` returns `Option (List Dir)`: the path of the
first (pre-order, left before right) leaf whose hash equals the target.
The `Parent` chain of the found node is recovered from the root and this
direction list (`ancestors`), ordered leaf to root.
-/

/-- A direction from a parent to one of its children. -/
inductive Dir where
  | L
  | R
deriving DecidableEq, Repr

/-- `findLeaf`: path of the first leaf (pre-order) whose hash is `target`. -/
def findLeaf (t : MerkleTree) (target : ByteStr) : Option (List Dir) :=
  match t with
  | .lf h => if h = target then some [] else none
  | .nd l r _ =>
    match findLeaf l target with
    | some d => some (.L :: d)
    | none => (findLeaf r target).map (.R :: ·)

/-- Hash of the node reached by `dirs` (the found leaf's `Hash` field);
total, with junk values on invalid paths, which `GetAuditPath` never uses. -/
def leafHashAt : MerkleTree → List Dir → ByteStr
  | t, [] => t.hashv
  | .nd l _ _, .L :: rest => leafHashAt l rest
  | .nd _ r _, .R :: rest => leafHashAt r rest
  | .lf h, _ :: _ => h

/-- The `Parent` chain of the node at `dirs`, leaf to root: each element is
the parent node together with the direction that was taken from it. -/
def ancestors : MerkleTree → List Dir → List (MerkleTree × Dir)
  | _, [] => []
  | .nd l r h, .L :: rest => ancestors l rest ++ [(.nd l r h, .L)]
  | .nd l r h, .R :: rest => ancestors r rest ++ [(.nd l r h, .R)]
  | .lf _, _ :: _ => []

/-- `AuditPath` from binary.go: two parallel lists of sibling hashes and
order tags. -/
structure AuditPath where
  path : List ByteStr
  order : List Nat
deriving DecidableEq, Repr

/-- The walk loop of `GetAuditPath`:

```go
ap := &AuditPath{}
for !bytes.Equal(node.Hash, mt.Hash) {
    if node.Parent.Left == node {
        ap.Path = append(ap.Path, node.Parent.Right.Hash)
        ap.Order = append(ap.Order, right)
    } else {
        ap.Path = append(ap.Path, node.Parent.Left.Hash)
        ap.Order = append(ap.Order, left)
    }
    node = node.Parent
}
```

`rootHash` is the root's hash `mt.Hash`, `cur` the current node's hash and
`anc` its remaining parent chain. A node is its parent's `Left` child
exactly when the recorded direction is `.L` (each Go node is a distinct
allocation, so pointer identity agrees with position). The `anc = []`,
`cur ≠ rootHash` case would dereference a nil `Parent` in Go; it is
unreachable because the chain always ends at the root itself. -/
def climb (rootHash : ByteStr) : ByteStr → List (MerkleTree × Dir) → AuditPath
  | cur, anc =>
    if cur = rootHash then ⟨[], []⟩
    else
      match anc with
      | [] => ⟨[], []⟩
      | (p, d) :: rest =>
        let tail := climb rootHash p.hashv rest
        match d with
        | .L => ⟨p.rightHash :: tail.path, rightOrder :: tail.order⟩
        | .R => ⟨p.leftHash :: tail.path, leftOrder :: tail.order⟩

/-- `GetAuditPath`: find the leaf with hash `H data`, then walk its parent
chain up to the root collecting sibling hashes and order tags. -/
def GetAuditPath (H : ByteStr → ByteStr) (t : MerkleTree) (data : ByteStr) :
    Except String AuditPath :=
  match findLeaf t (H data) with
  | none => .error "failed to find leaf node"
  | some dirs => .ok (climb t.hashv (leafHashAt t dirs) (ancestors t dirs))

/-- The verification loop of `IsValid`:

```go
h := hash(data)
for i, p := range ap.Path {
    if ap.Order[i] == left { h = hash(append(p, h...)) } else { h = hash(append(h, p...)) }
}
return bytes.Equal(rootHash, h)
```

Iteration is over `Path`; `Order` is indexed in lockstep, and a `Path`
longer than `Order` makes Go panic with an index-out-of-range —
modelled as `none`. Surplus `Order` entries are ignored, as in Go. -/
def isValidLoop (H : ByteStr → ByteStr) (rootHash : ByteStr) :
    ByteStr → List ByteStr → List Nat → Option Bool
  | h, [], _ => some (rootHash == h)
  | _, _ :: _, [] => none
  | h, p :: ps, o :: os =>
    isValidLoop H rootHash (if o = leftOrder then H (p ++ h) else H (h ++ p)) ps os

/-- `IsValid` on a possibly-nil `*AuditPath` receiver: nil is always
invalid (`false`); otherwise run the verification loop. -/
def IsValid (H : ByteStr → ByteStr) (ap : Option AuditPath)
    (data rootHash : ByteStr) : Option Bool :=
  match ap with
  | none => some false
  | some ap => isValidLoop H rootHash (H data) ap.path ap.order

end Binary

namespace Binary

/-- **C10.** A caller-constructed `AuditPath` whose `Path` is longer than its
`Order` makes `IsValid` fail with an index-out-of-range panic (modelled as
`none`) instead of returning a boolean. -/
theorem claim10_isvalid_out_of_range :
    ∀ (H : ByteStr → ByteStr) (data rootHash : ByteStr),
      IsValid H (some ⟨[[0]], []⟩) data rootHash = none := by
  intro H data rootHash
  rfl

/-- The side a sibling hash occupies, as the spec's two-valued enumeration. -/
inductive Side where
  | LEFT
  | RIGHT
deriving DecidableEq, Repr

/-- The side encoded by an order tag: `left` (0) is `LEFT`, anything else is
treated as `RIGHT`, exactly as `IsValid`'s `if ap.Order[i] == left` does. -/
def sideOfOrder (o : Nat) : Side :=
  if o = leftOrder then .LEFT else .RIGHT

/-- One recombination step as worded by the spec (§4.3): `h = H(sibling ++ h)`
for a `LEFT` sibling, `h = H(h ++ sibling)` for a `RIGHT` sibling. -/
def combineSpec (H : ByteStr → ByteStr) (h : ByteStr) (e : ByteStr × Side) : ByteStr :=
  match e.2 with
  | .LEFT => H (e.1 ++ h)
  | .RIGHT => H (h ++ e.1)

/-- `isValid` as worded by the spec: fold the `(siblingHash, side)` entries in
path order starting from `H data` and compare with the root hash by exact
byte equality. -/
def isValidSpec (H : ByteStr → ByteStr) (data : ByteStr)
    (entries : List (ByteStr × Side)) (rootHash : ByteStr) : Bool :=
  rootHash == entries.foldl (combineSpec H) (H data)

theorem isValidLoop_eq_spec (H : ByteStr → ByteStr) (rootHash : ByteStr) :
    ∀ (ps : List ByteStr) (os : List Nat) (h : ByteStr),
      ps.length ≤ os.length →
      isValidLoop H rootHash h ps os =
        some (rootHash == (ps.zip (os.map sideOfOrder)).foldl (combineSpec H) h) := by
  intro ps
  induction ps with
  | nil => intro os h _; simp [isValidLoop]
  | cons p ps ih =>
    intro os h hlen
    cases os with
    | nil => simp at hlen
    | cons o os =>
      by_cases ho : o = leftOrder <;>
        simp [isValidLoop, ho, sideOfOrder, combineSpec,
          ih os _ (by simpa using hlen)]

/-- **C4.** `IsValid` on a nil audit path returns `false`; otherwise (given
the well-formedness `len(Path) ≤ len(Order)` that rules out the C10 panic) it
folds each `(siblingHash, side)` entry in path order — `h = H(sibling ++ h)`
on `LEFT`, `h = H(h ++ sibling)` on `RIGHT` — and returns whether the final
value equals the given root hash, byte for byte. -/
theorem claim4_isvalid_fold (H : ByteStr → ByteStr) :
    (∀ data rootHash, IsValid H none data rootHash = some false) ∧
    (∀ (ap : AuditPath) (data rootHash : ByteStr),
      ap.path.length ≤ ap.order.length →
      IsValid H (some ap) data rootHash =
        some (isValidSpec H data (ap.path.zip (ap.order.map sideOfOrder)) rootHash)) := by
  refine ⟨fun data rootHash => rfl, fun ap data rootHash hlen => ?_⟩
  exact isValidLoop_eq_spec H rootHash ap.path ap.order (H data) hlen

/-- Witness for C4 at `ap = ⟨[[1]], [0]⟩`, `H = id`. -/
theorem claim4_isvalid_fold_witness :
    (([[1]] : List ByteStr).length ≤ ([0] : List Nat).length) ∧
    IsValid id (some ⟨[[1]], [0]⟩) [2] [3] =
      some (isValidSpec id [2] (([[1]] : List ByteStr).zip (([0] : List Nat).map sideOfOrder)) [3]) :=
  ⟨by decide, (claim4_isvalid_fold id).2 ⟨[[1]], [0]⟩ [2] [3] (by decide)⟩

end Binary

namespace Binary

theorem new3_eq (H : ByteStr → ByteStr) (a b c : ByteStr) :
    New H [a, b, c] =
      .nd (.nd (.lf (H a)) (.lf (H b)) (H (H a ++ H b))) (.lf (H c))
        (H (H (H a ++ H b) ++ H c)) := by
  simp [New, subTree, splitPoint, Nat.log2, MerkleTree.hashv, List.take]

/-- **C3.** `GetAuditPath` walks from the found leaf up the parent chain,
emitting `(parent.right.hash, RIGHT)` when the node is its parent's left
child and `(parent.left.hash, LEFT)` otherwise, stopping when the current
hash equals the root hash; concretely, on the tree over `[a,b,c]` the path
for `b` is `[(H a, LEFT), (H c, RIGHT)]` and the path for `c` is
`[(H (H a ++ H b), LEFT)]` (in the code's parallel-list encoding the emitted
tag names the *sibling's* side). The hash-distinctness hypotheses are the
collision-freeness of SHA-256 on the six digests involved. -/
theorem claim3_audit_path_walk (H : ByteStr → ByteStr) (a b c : ByteStr)
    (hab : H a ≠ H b) (hac : H a ≠ H c) (hbc : H b ≠ H c)
    (hbR : H b ≠ H (H (H a ++ H b) ++ H c))
    (habR : H (H a ++ H b) ≠ H (H (H a ++ H b) ++ H c))
    (hcR : H c ≠ H (H (H a ++ H b) ++ H c)) :
    GetAuditPath H (New H [a, b, c]) b =
      .ok ⟨[H a, H c], [leftOrder, rightOrder]⟩ ∧
    GetAuditPath H (New H [a, b, c]) c =
      .ok ⟨[H (H a ++ H b)], [leftOrder]⟩ := by
  rw [new3_eq]
  constructor
  · simp [GetAuditPath, findLeaf, hab, leafHashAt, ancestors, MerkleTree.hashv,
      climb, MerkleTree.leftHash, MerkleTree.rightHash, hbR, habR]
  · simp [GetAuditPath, findLeaf, hac, hbc, leafHashAt, ancestors, MerkleTree.hashv,
      climb, MerkleTree.leftHash, MerkleTree.rightHash, hcR]

/-- Witness for C3 at `H = id`, `a = [0]`, `b = [1]`, `c = [2]`. -/
theorem claim3_audit_path_walk_witness :
    (id [0] ≠ id [1] ∧ id [0] ≠ id [2] ∧ id [1] ≠ id [2] ∧
      id [1] ≠ id (id (id [0] ++ id [1]) ++ id [2]) ∧
      id (id [0] ++ id [1]) ≠ id (id (id [0] ++ id [1]) ++ id [2]) ∧
      (id [2] : ByteStr) ≠ id (id (id [0] ++ id [1]) ++ id [2])) ∧
    GetAuditPath id (New id [[0], [1], [2]]) [1] =
      .ok ⟨[id [0], id [2]], [leftOrder, rightOrder]⟩ ∧
    GetAuditPath id (New id [[0], [1], [2]]) [2] =
      .ok ⟨[id (id [0] ++ id [1])], [leftOrder]⟩ :=
  ⟨⟨by decide, by decide, by decide, by decide, by decide, by decide⟩,
    claim3_audit_path_walk id [0] [1] [2] (by decide) (by decide) (by decide)
      (by decide) (by decide) (by decide)⟩

end Binary

namespace Binary

/-!
## Leaf enumeration and hash consistency

The correctness arguments for `GetAuditPath` and the round-trip property
are phrased through the list of leaf hashes in left-to-right order, the
predicate that a direction list is a genuine root-to-leaf path, and the
invariant that every inner node hashes the concatenation of its children's
hashes (which `New` establishes by construction).
-/

/-- Hashes of the leaves, in left-to-right order. -/
def leafHashes : MerkleTree → List ByteStr
  | .lf h => [h]
  | .nd l r _ => leafHashes l ++ leafHashes r

/-- `dirs` is a root-to-leaf path of `t`. -/
def IsLeafPath : MerkleTree → List Dir → Prop
  | .lf _, [] => True
  | .nd l _ _, .L :: rest => IsLeafPath l rest
  | .nd _ r _, .R :: rest => IsLeafPath r rest
  | _, _ => False

/-- Number of leaves strictly to the left of the leaf at `dirs`. -/
def leavesBefore : MerkleTree → List Dir → Nat
  | _, [] => 0
  | .nd l _ _, .L :: rest => leavesBefore l rest
  | .nd l r _, .R :: rest => (leafHashes l).length + leavesBefore r rest
  | .lf _, _ :: _ => 0

/-- Every inner node's hash is `H` of the concatenation of its children's
hashes. -/
def WellHashed (H : ByteStr → ByteStr) : MerkleTree → Prop
  | .lf _ => True
  | .nd l r h => h = H (l.hashv ++ r.hashv) ∧ WellHashed H l ∧ WellHashed H r

/-- The hash of the topmost node of a parent chain (the root when the chain
comes from `ancestors`), i.e. the hash at which the walk of `climb` can
terminate. -/
def topHash : ByteStr → List (MerkleTree × Dir) → ByteStr
  | cur, [] => cur
  | _, (p, _) :: rest => topHash p.hashv rest

/-- Consistency of a leaf-to-root parent chain: each recorded parent is an
inner node hashing its children's concatenation, whose child on the recorded
direction has the current hash. -/
def LinkedChain (H : ByteStr → ByteStr) : ByteStr → List (MerkleTree × Dir) → Prop
  | _, [] => True
  | cur, (p, d) :: rest =>
    (∃ l r, p = .nd l r (H (l.hashv ++ r.hashv)) ∧
      (d = .L → l.hashv = cur) ∧ (d = .R → r.hashv = cur)) ∧
    LinkedChain H p.hashv rest

end Binary

namespace Binary

theorem subTree_wellHashed (H : ByteStr → ByteStr) :
    ∀ (n : Nat) (data : List ByteStr), data.length ≤ n →
      WellHashed H (subTree H data) := by
  intro n
  induction n with
  | zero =>
    intro data hlen
    rw [subTree, dif_pos (by omega)]
    trivial
  | succ n ih =>
    intro data hlen
    rw [subTree]
    by_cases h2 : data.length < 2
    · rw [dif_pos h2]; trivial
    · rw [dif_neg h2]
      have hk1 : 0 < splitPoint data.length := splitPoint_pos _
      have hk2 : splitPoint data.length < data.length := splitPoint_lt (by omega)
      refine ⟨rfl, ?_, ?_⟩
      · exact ih _ (by simp only [List.length_take]; omega)
      · exact ih _ (by simp only [List.length_drop]; omega)

theorem New_wellHashed (H : ByteStr → ByteStr) (data : List ByteStr) :
    WellHashed H (New H data) := by
  cases data with
  | nil => trivial
  | cons a l => exact subTree_wellHashed H (a :: l).length _ le_rfl

theorem subTree_leafHashes (H : ByteStr → ByteStr) :
    ∀ (n : Nat) (data : List ByteStr), data.length ≤ n → data ≠ [] →
      leafHashes (subTree H data) = data.map H := by
  intro n
  induction n with
  | zero =>
    intro data hlen hne
    cases data with
    | nil => exact absurd rfl hne
    | cons a l => simp at hlen
  | succ n ih =>
    intro data hlen hne
    rw [subTree]
    by_cases h2 : data.length < 2
    · rw [dif_pos h2]
      cases data with
      | nil => exact absurd rfl hne
      | cons a l =>
        cases l with
        | nil => simp [leafHashes]
        | cons b l2 => simp at h2; omega
    · rw [dif_neg h2]
      have hk1 : 0 < splitPoint data.length := splitPoint_pos _
      have hk2 : splitPoint data.length < data.length := splitPoint_lt (by omega)
      show leafHashes (.nd _ _ _) = _
      rw [leafHashes]
      rw [ih _ (by simp only [List.length_take]; omega) (take_ne_nil hk1 (by omega)),
          ih _ (by simp only [List.length_drop]; omega) (drop_ne_nil hk2)]
      rw [← List.map_append, List.take_append_drop]

theorem New_leafHashes (H : ByteStr → ByteStr) {data : List ByteStr}
    (h : data ≠ []) : leafHashes (New H data) = data.map H := by
  rw [New_eq_subTree H h]
  exact subTree_leafHashes H data.length data le_rfl h

end Binary

namespace Binary

theorem findLeaf_none_iff (target : ByteStr) :
    ∀ (t : MerkleTree), findLeaf t target = none ↔ target ∉ leafHashes t := by
  intro t
  induction t with
  | lf h =>
    by_cases hh : h = target
    · subst hh; simp [findLeaf, leafHashes]
    · simp [findLeaf, leafHashes, hh, Ne.symm hh]
  | nd l r h ihl ihr =>
    rw [findLeaf]
    cases hfl : findLeaf l target with
    | some d =>
      have hmem : target ∈ leafHashes l := by
        by_contra hnm
        rw [ihl.mpr hnm] at hfl
        exact Option.noConfusion hfl
      simp [leafHashes, hmem]
    | none => simp [leafHashes, ihl.mp hfl, ihr]

end Binary

namespace Binary

theorem findLeaf_spec (target : ByteStr) :
    ∀ (t : MerkleTree) (dirs : List Dir), findLeaf t target = some dirs →
      IsLeafPath t dirs ∧ leafHashAt t dirs = target ∧
      (leafHashes t)[leavesBefore t dirs]? = some target ∧
      ∀ j < leavesBefore t dirs, (leafHashes t)[j]? ≠ some target := by
  intro t
  induction t with
  | lf h =>
    intro dirs hf
    rw [findLeaf] at hf
    by_cases hh : h = target
    · rw [if_pos hh] at hf
      cases hf
      subst hh
      refine ⟨trivial, rfl, rfl, ?_⟩
      intro j hj
      simp [leavesBefore] at hj
    · rw [if_neg hh] at hf
      exact Option.noConfusion hf
  | nd l r h ihl ihr =>
    intro dirs hf
    rw [findLeaf] at hf
    cases hfl : findLeaf l target with
    | some d =>
      rw [hfl] at hf
      cases hf
      obtain ⟨hp, hha, hget, hfirst⟩ := ihl d hfl
      have hlt : leavesBefore l d < (leafHashes l).length := by
        by_contra hge
        rw [List.getElem?_eq_none (by omega)] at hget
        exact Option.noConfusion hget
      refine ⟨hp, hha, ?_, ?_⟩
      · show (leafHashes l ++ leafHashes r)[leavesBefore l d]? = some target
        rw [List.getElem?_append_left hlt]
        exact hget
      · intro j hj
        simp only [leavesBefore] at hj
        show (leafHashes l ++ leafHashes r)[j]? ≠ some target
        rw [List.getElem?_append_left (by omega)]
        exact hfirst j hj
    | none =>
      rw [hfl] at hf
      cases hfr : findLeaf r target with
      | none => rw [hfr] at hf; exact Option.noConfusion hf
      | some d =>
        rw [hfr] at hf
        cases hf
        obtain ⟨hp, hha, hget, hfirst⟩ := ihr d hfr
        have hnotl : target ∉ leafHashes l := (findLeaf_none_iff target l).mp hfl
        refine ⟨hp, hha, ?_, ?_⟩
        · show (leafHashes l ++ leafHashes r)[(leafHashes l).length + leavesBefore r d]? = some target
          rw [List.getElem?_append_right (by omega)]
          simpa using hget
        · intro j hj
          show (leafHashes l ++ leafHashes r)[j]? ≠ some target
          by_cases hjl : j < (leafHashes l).length
          · rw [List.getElem?_append_left hjl]
            intro hc
            exact hnotl (List.getElem?_mem hc)
          · rw [List.getElem?_append_right (by omega)]
            exact hfirst (j - (leafHashes l).length) (by simp [leavesBefore] at hj ⊢; omega)

end Binary

namespace Binary

theorem linkedChain_snoc (H : ByteStr → ByteStr) (l r : MerkleTree) (d : Dir) :
    ∀ (anc : List (MerkleTree × Dir)) (cur : ByteStr),
      LinkedChain H cur anc →
      (d = .L → l.hashv = topHash cur anc) →
      (d = .R → r.hashv = topHash cur anc) →
      LinkedChain H cur (anc ++ [(.nd l r (H (l.hashv ++ r.hashv)), d)]) ∧
      topHash cur (anc ++ [(.nd l r (H (l.hashv ++ r.hashv)), d)]) =
        H (l.hashv ++ r.hashv) := by
  intro anc
  induction anc with
  | nil =>
    intro cur hchain hL hR
    refine ⟨⟨⟨l, r, rfl, ?_, ?_⟩, trivial⟩, rfl⟩
    · intro hd; exact hL hd
    · intro hd; exact hR hd
  | cons pd rest ih =>
    intro cur hchain hL hR
    obtain ⟨hhead, htail⟩ := hchain
    obtain ⟨hc, ht⟩ := ih pd.1.hashv htail hL hR
    exact ⟨⟨hhead, hc⟩, ht⟩

theorem ancestors_linked (H : ByteStr → ByteStr) :
    ∀ (t : MerkleTree) (dirs : List Dir), WellHashed H t → IsLeafPath t dirs →
      LinkedChain H (leafHashAt t dirs) (ancestors t dirs) ∧
      topHash (leafHashAt t dirs) (ancestors t dirs) = t.hashv := by
  intro t
  induction t with
  | lf h =>
    intro dirs _ hp
    cases dirs with
    | nil => exact ⟨trivial, rfl⟩
    | cons d rest => exact absurd hp (by simp [IsLeafPath])
  | nd l r h ihl ihr =>
    intro dirs hw hp
    obtain ⟨hh, hwl, hwr⟩ := hw
    cases dirs with
    | nil => exact absurd hp (by simp [IsLeafPath])
    | cons d rest =>
      cases d with
      | L =>
        have hp' : IsLeafPath l rest := hp
        obtain ⟨hc, ht⟩ := ihl rest hwl hp'
        subst hh
        have := linkedChain_snoc H l r .L (ancestors l rest) (leafHashAt l rest)
          hc (fun _ => ht.symm) (fun hd => Dir.noConfusion hd)
        exact ⟨this.1, this.2⟩
      | R =>
        have hp' : IsLeafPath r rest := hp
        obtain ⟨hc, ht⟩ := ihr rest hwr hp'
        subst hh
        have := linkedChain_snoc H l r .R (ancestors r rest) (leafHashAt r rest)
          hc (fun hd => Dir.noConfusion hd) (fun _ => ht.symm)
        exact ⟨this.1, this.2⟩

end Binary

namespace Binary

theorem climb_valid (H : ByteStr → ByteStr) (rootHash : ByteStr) :
    ∀ (anc : List (MerkleTree × Dir)) (cur : ByteStr),
      LinkedChain H cur anc → topHash cur anc = rootHash →
      isValidLoop H rootHash cur (climb rootHash cur anc).path
        (climb rootHash cur anc).order = some true := by
  intro anc
  induction anc with
  | nil =>
    intro cur _ htop
    have hcur : cur = rootHash := htop
    rw [climb, if_pos hcur]
    simp [isValidLoop, hcur]
  | cons pd rest ih =>
    intro cur hchain htop
    by_cases hc : cur = rootHash
    · rw [climb, if_pos hc]
      simp [isValidLoop, hc]
    · obtain ⟨p, d⟩ := pd
      obtain ⟨⟨l, r, hp, hdl, hdr⟩, htail⟩ := hchain
      subst hp
      have key := ih (H (l.hashv ++ r.hashv)) htail htop
      cases d with
      | L =>
        have hcur : l.hashv = cur := hdl rfl
        rw [climb]
        simp only [if_neg hc]
        rw [isValidLoop]
        rw [if_neg (by decide : ¬(rightOrder = leftOrder)), ← hcur]
        exact key
      | R =>
        have hcur : r.hashv = cur := hdr rfl
        rw [climb]
        simp only [if_neg hc]
        rw [isValidLoop]
        rw [if_pos rfl, ← hcur]
        exact key

end Binary

namespace Binary

/-- **C2.** Round trip: for every block actually in the sequence a tree was
built from, extracting the audit path with `GetAuditPath` and checking it
with `IsValid` against the tree's root hash returns `true`. -/
theorem claim2_round_trip (H : ByteStr → ByteStr) (blocks : List ByteStr)
    (data : ByteStr) (hmem : data ∈ blocks) :
    ∃ ap, GetAuditPath H (New H blocks) data = .ok ap ∧
      IsValid H (some ap) data (New H blocks).hashv = some true := by
  have hne : blocks ≠ [] := by rintro rfl; simp at hmem
  have hmem' : H data ∈ leafHashes (New H blocks) := by
    rw [New_leafHashes H hne]
    exact List.mem_map_of_mem H hmem
  cases hfl : findLeaf (New H blocks) (H data) with
  | none => exact absurd hmem' ((findLeaf_none_iff _ _).mp hfl)
  | some dirs =>
    obtain ⟨hp, hha, -, -⟩ := findLeaf_spec (H data) (New H blocks) dirs hfl
    obtain ⟨hchain, htop⟩ :=
      ancestors_linked H (New H blocks) dirs (New_wellHashed H blocks) hp
    refine ⟨climb (New H blocks).hashv (leafHashAt (New H blocks) dirs)
      (ancestors (New H blocks) dirs), ?_, ?_⟩
    · rw [GetAuditPath, hfl]
    · rw [IsValid, ← hha]
      exact climb_valid H _ _ _ hchain htop

/-- Witness for C2 at `blocks = [[0],[1]]`, `data = [1]`, `H = id`. -/
theorem claim2_round_trip_witness :
    ([1] ∈ ([[0], [1]] : List ByteStr)) ∧
    ∃ ap, GetAuditPath id (New id [[0], [1]]) [1] = .ok ap ∧
      IsValid id (some ap) [1] (New id [[0], [1]]).hashv = some true :=
  ⟨by decide, claim2_round_trip id [[0], [1]] [1] (by decide)⟩

/-- **C5.** `GetAuditPath` fails with the not-found error exactly when no
leaf hashes to `H data`; a found leaf is the first matching one in pre-order
(left before right); and on a single-block tree whose leaf matches, the
result is the empty (but present) audit path, not an error. -/
theorem claim5_not_found_and_first_match (H : ByteStr → ByteStr) :
    (∀ (blocks : List ByteStr) (data : ByteStr),
      GetAuditPath H (New H blocks) data = .error "failed to find leaf node" ↔
        H data ∉ leafHashes (New H blocks)) ∧
    (∀ (blocks : List ByteStr) (data : ByteStr) (dirs : List Dir),
      findLeaf (New H blocks) (H data) = some dirs →
        leafHashAt (New H blocks) dirs = H data ∧
        (leafHashes (New H blocks))[leavesBefore (New H blocks) dirs]? =
          some (H data) ∧
        ∀ j < leavesBefore (New H blocks) dirs,
          (leafHashes (New H blocks))[j]? ≠ some (H data)) ∧
    (∀ (a data : ByteStr), H data = H a →
      GetAuditPath H (New H [a]) data = .ok ⟨[], []⟩) := by
  refine ⟨fun blocks data => ⟨?_, ?_⟩, fun blocks data dirs hf => ?_, fun a data heq => ?_⟩
  · intro herr hmem
    cases hfl : findLeaf (New H blocks) (H data) with
    | none => exact (findLeaf_none_iff _ _).mp hfl hmem
    | some dirs =>
      rw [GetAuditPath, hfl] at herr
      exact Except.noConfusion herr
  · intro hnm
    rw [GetAuditPath, (findLeaf_none_iff _ _).mpr hnm]
  · obtain ⟨-, h1, h2, h3⟩ := findLeaf_spec (H data) _ dirs hf
    exact ⟨h1, h2, h3⟩
  · have h1 : New H [a] = .lf (H a) := by
      rw [New_eq_subTree H (by simp), subTree]
      simp
    rw [h1]
    simp [GetAuditPath, findLeaf, heq.symm, climb, leafHashAt, ancestors,
      MerkleTree.hashv]

/-- Witness for C5 at `a = [0]`, `data = [0]`, `H = id` (single-block case). -/
theorem claim5_not_found_and_first_match_witness :
    (id [0] = (id [0] : ByteStr)) ∧
    GetAuditPath id (New id [[0]]) [0] = .ok ⟨[], []⟩ :=
  ⟨rfl, (claim5_not_found_and_first_match id).2.2 [0] [0] rfl⟩

end Binary

namespace Binary

/-!
## Heap model of `New` — parent pointers

The inductive `MerkleTree` cannot carry the Go struct's `Parent` back
pointer. To check the pointer structure that `New` actually builds
(`left.Parent = parent; right.Parent = parent`, root `Parent` nil, and no
node with exactly one child), `subTree` is modelled a second time as a heap
allocator: nodes live in a list addressed by index, children are built
first, then the parent node is allocated and the two children's `parent`
fields are set to its index. Go allocates the (still empty) parent struct
before recursing and fills it afterwards; allocating it after the children
yields the same final pointer graph. -/
structure HNode where
  parent : Option Nat
  left : Option Nat
  right : Option Nat
  hashf : ByteStr
deriving DecidableEq, Repr

/-- The node heap: index = allocation address. -/
abbrev Heap := List HNode

/-- Overwrite the `parent` field of node `i` (no-op on a dangling index,
which `subTreeH` never produces). -/
def setParent (heap : Heap) (i p : Nat) : Heap :=
  match heap[i]? with
  | some n => heap.set i { n with parent := some p }
  | none => heap

/-- Heap-allocating `subTree`: builds the subtree for `data`, appending its
nodes to `heap`; returns the root's index and the extended heap. The
children's `parent` fields are set to the freshly allocated parent index,
mirroring `left.Parent = parent; right.Parent = parent`. -/
def subTreeH (H : ByteStr → ByteStr) (data : List ByteStr) (heap : Heap) :
    Nat × Heap :=
  if _h : data.length < 2 then
    (heap.length, heap ++ [⟨none, none, none, H (data.headD [])⟩])
  else
    let k := splitPoint data.length
    let resL := subTreeH H (data.take k) heap
    let resR := subTreeH H (data.drop k) resL.2
    let heap2 := resR.2
    let lh := ((heap2[resL.1]?).map HNode.hashf).getD []
    let rh := ((heap2[resR.1]?).map HNode.hashf).getD []
    let pIdx := heap2.length
    let heap3 := heap2 ++ [⟨none, some resL.1, some resR.1, H (lh ++ rh)⟩]
    (pIdx, setParent (setParent heap3 resL.1 pIdx) resR.1 pIdx)
termination_by data.length
decreasing_by
  · simp only [List.length_take]
    have h1 := splitPoint_lt (n := data.length) (by omega)
    have h2 := splitPoint_pos data.length
    omega
  · simp only [List.length_drop]
    have h1 := splitPoint_lt (n := data.length) (by omega)
    have h2 := splitPoint_pos data.length
    omega

/-- Heap-allocating `New`. -/
def NewH (H : ByteStr → ByteStr) (data : List ByteStr) : Nat × Heap :=
  match data with
  | [] => (0, [⟨none, none, none, H []⟩])
  | _ :: _ => subTreeH H data []

/-- The structural invariant claimed for every tree `New` returns: no node
has exactly one child, every child's `parent` field points back to its
parent, and the root's `parent` is nil. -/
def HeapInv (heap : Heap) (root : Nat) : Prop :=
  (∀ (i : Nat) (n : HNode), heap[i]? = some n →
    ((n.left = none ↔ n.right = none) ∧
     (∀ c, n.left = some c → ∃ cn, heap[c]? = some cn ∧ cn.parent = some i) ∧
     (∀ c, n.right = some c → ∃ cn, heap[c]? = some cn ∧ cn.parent = some i))) ∧
  (∃ rn, heap[root]? = some rn ∧ rn.parent = none)

/-- Invariant of the heap region allocated above `base`, strengthened for
the induction: children point strictly downwards but stay inside the
region. -/
def RegionOk (base : Nat) (heap : Heap) : Prop :=
  ∀ (i : Nat) (n : HNode), base ≤ i → heap[i]? = some n →
    ((n.left = none ↔ n.right = none) ∧
     ∀ c, n.left = some c ∨ n.right = some c →
       base ≤ c ∧ c < i ∧ ∃ cn, heap[c]? = some cn ∧ cn.parent = some i)

theorem setParent_length (heap : Heap) (i p : Nat) :
    (setParent heap i p).length = heap.length := by
  rw [setParent]
  cases h : heap[i]? <;> simp

theorem setParent_getElem_self {heap : Heap} {i : Nat} (p : Nat) {n : HNode}
    (h : heap[i]? = some n) :
    (setParent heap i p)[i]? = some { n with parent := some p } := by
  rw [setParent, h]
  have : i < heap.length := by
    by_contra hge
    rw [List.getElem?_eq_none (by omega)] at h
    exact Option.noConfusion h
  rw [List.getElem?_set_self this]

theorem setParent_getElem_other {heap : Heap} {i j : Nat} (p : Nat) (h : i ≠ j) :
    (setParent heap i p)[j]? = heap[j]? := by
  rw [setParent]
  cases hi : heap[i]? with
  | none => rfl
  | some n => rw [List.getElem?_set_ne h]

end Binary

namespace Binary

theorem append_one_spec (heap0 : Heap) (x : HNode) (hxl : x.left = none)
    (hxr : x.right = none) (hxp : x.parent = none) :
    heap0.length ≤ heap0.length ∧
    heap0.length + 1 = (heap0 ++ [x]).length ∧
    (∀ i, i < heap0.length → (heap0 ++ [x])[i]? = heap0[i]?) ∧
    RegionOk heap0.length (heap0 ++ [x]) ∧
    (∃ rn, (heap0 ++ [x])[heap0.length]? = some rn ∧ rn.parent = none) := by
  have hroot : (heap0 ++ [x])[heap0.length]? = some x := by
    rw [List.getElem?_append_right le_rfl]
    simp
  refine ⟨le_rfl, by simp, fun i hi => List.getElem?_append_left hi, ?_, x, hroot, hxp⟩
  intro i n hge hsome
  rcases Nat.eq_or_lt_of_le hge with heq | hlt
  · subst heq
    rw [hroot] at hsome
    injection hsome with hn
    subst hn
    refine ⟨by rw [hxl, hxr], ?_⟩
    intro c hc
    rcases hc with hc | hc
    · rw [hxl] at hc; exact Option.noConfusion hc
    · rw [hxr] at hc; exact Option.noConfusion hc
  · rw [List.getElem?_eq_none (by simp; omega)] at hsome
    exact Option.noConfusion hsome

theorem subTreeH_spec (H : ByteStr → ByteStr) :
    ∀ (nn : Nat) (data : List ByteStr) (heap0 : Heap), data.length ≤ nn →
      heap0.length ≤ (subTreeH H data heap0).1 ∧
      (subTreeH H data heap0).1 + 1 = (subTreeH H data heap0).2.length ∧
      (∀ i, i < heap0.length → (subTreeH H data heap0).2[i]? = heap0[i]?) ∧
      RegionOk heap0.length (subTreeH H data heap0).2 ∧
      (∃ rn, (subTreeH H data heap0).2[(subTreeH H data heap0).1]? = some rn ∧
        rn.parent = none) := by
  intro nn
  induction nn with
  | zero =>
    intro data heap0 hlen
    have h2 : data.length < 2 := by omega
    have hres : subTreeH H data heap0 =
        (heap0.length, heap0 ++ [⟨none, none, none, H (data.headD [])⟩]) := by
      rw [subTreeH, dif_pos h2]
    rw [hres]
    exact append_one_spec heap0 _ rfl rfl rfl
  | succ nn ih =>
    intro data heap0 hlen
    by_cases h2 : data.length < 2
    · have hres : subTreeH H data heap0 =
          (heap0.length, heap0 ++ [⟨none, none, none, H (data.headD [])⟩]) := by
        rw [subTreeH, dif_pos h2]
      rw [hres]
      exact append_one_spec heap0 _ rfl rfl rfl
    · have hk1 : 0 < splitPoint data.length := splitPoint_pos _
      have hk2 : splitPoint data.length < data.length := splitPoint_lt (by omega)
      set k := splitPoint data.length with hk
      obtain ⟨L1, L2, L4, L5, lrn, Lget, Lpar⟩ :=
        ih (data.take k) heap0 (by simp only [List.length_take]; omega)
      obtain ⟨R1, R2, R4, R5, rrn, Rget, Rpar⟩ :=
        ih (data.drop k) (subTreeH H (data.take k) heap0).2
          (by simp only [List.length_drop]; omega)
      set li := (subTreeH H (data.take k) heap0).1 with hli
      set heapL := (subTreeH H (data.take k) heap0).2 with hheapL
      set ri := (subTreeH H (data.drop k) heapL).1 with hri
      set heap2 := (subTreeH H (data.drop k) heapL).2 with hheap2
      set pIdx := heap2.length with hpIdx
      set pnode : HNode :=
        ⟨none, some li, some ri,
          H (((heap2[li]?).map HNode.hashf).getD [] ++
             ((heap2[ri]?).map HNode.hashf).getD [])⟩ with hpnode
      have hres : subTreeH H data heap0 =
          (pIdx, setParent (setParent (heap2 ++ [pnode]) li pIdx) ri pIdx) := by
        rw [subTreeH, dif_neg h2]
      rw [hres]
      -- arithmetic facts
      have hliL : li < heapL.length := by omega
      have hriH : ri < heap2.length := by omega
      have hlri : li < ri := by omega
      have hLH : heapL.length ≤ heap2.length := by omega
      -- lengths of the final heap
      have hlen5 : (setParent (setParent (heap2 ++ [pnode]) li pIdx) ri pIdx).length
          = heap2.length + 1 := by
        rw [setParent_length, setParent_length, List.length_append, List.length_singleton]
      -- lookups in the final heap
      have h3li : (heap2 ++ [pnode])[li]? = some lrn := by
        rw [List.getElem?_append_left (by omega), R4 li hliL]
        exact Lget
      have h3ri : (heap2 ++ [pnode])[ri]? = some rrn := by
        rw [List.getElem?_append_left (by omega)]
        exact Rget
      have h3p : (heap2 ++ [pnode])[pIdx]? = some pnode := by
        rw [List.getElem?_append_right le_rfl]
        simp
      have h5li : (setParent (setParent (heap2 ++ [pnode]) li pIdx) ri pIdx)[li]?
          = some { lrn with parent := some pIdx } := by
        rw [setParent_getElem_other pIdx (by omega : ri ≠ li)]
        exact setParent_getElem_self pIdx h3li
      have h5ri : (setParent (setParent (heap2 ++ [pnode]) li pIdx) ri pIdx)[ri]?
          = some { rrn with parent := some pIdx } := by
        have h4ri : (setParent (heap2 ++ [pnode]) li pIdx)[ri]? = some rrn := by
          rw [setParent_getElem_other pIdx (by omega : li ≠ ri)]
          exact h3ri
        exact setParent_getElem_self pIdx h4ri
      have h5other : ∀ j, j ≠ li → j ≠ ri →
          (setParent (setParent (heap2 ++ [pnode]) li pIdx) ri pIdx)[j]?
            = (heap2 ++ [pnode])[j]? := by
        intro j hjl hjr
        rw [setParent_getElem_other pIdx (Ne.symm hjr),
            setParent_getElem_other pIdx (Ne.symm hjl)]
      have h5p : (setParent (setParent (heap2 ++ [pnode]) li pIdx) ri pIdx)[pIdx]?
          = some pnode := by
        rw [h5other pIdx (by omega) (by omega)]
        exact h3p
      refine ⟨by omega, by rw [hlen5], ?_, ?_, pnode, h5p, rfl⟩
      · -- the pre-existing region is untouched
        intro i hi
        rw [h5other i (by omega) (by omega),
            List.getElem?_append_left (by omega), R4 i (by omega), L4 i hi]
      · -- region invariant
        intro i n hge hsome
        by_cases hip : i = pIdx
        · subst hip
          rw [h5p] at hsome
          injection hsome with hn
          subst hn
          refine ⟨by simp, ?_⟩
          intro c hc
          rcases hc with hc | hc
          · injection hc with hc
            subst hc
            exact ⟨by omega, by omega, _, h5li, rfl⟩
          · injection hc with hc
            subst hc
            exact ⟨by omega, by omega, _, h5ri, rfl⟩
        · by_cases hil : i = li
          · subst hil
            rw [h5li] at hsome
            injection hsome with hn
            subst hn
            obtain ⟨hiff, hchild⟩ := L5 li lrn (by omega) Lget
            refine ⟨hiff, ?_⟩
            intro c hc
            obtain ⟨hcb, hcl, cn, hcn, hcp⟩ := hchild c hc
            refine ⟨hcb, hcl, cn, ?_, hcp⟩
            rw [h5other c (by omega) (by omega),
                List.getElem?_append_left (by omega), R4 c (by omega)]
            exact hcn
          · by_cases hir : i = ri
            · subst hir
              rw [h5ri] at hsome
              injection hsome with hn
              subst hn
              obtain ⟨hiff, hchild⟩ := R5 ri rrn R1 Rget
              refine ⟨hiff, ?_⟩
              intro c hc
              obtain ⟨hcb, hcl, cn, hcn, hcp⟩ := hchild c hc
              refine ⟨by omega, hcl, cn, ?_, hcp⟩
              rw [h5other c (by omega) (by omega),
                  List.getElem?_append_left (by omega)]
              exact hcn
            · have hlt : i < pIdx := by
                by_contra hgep
                rw [h5other i hil hir,
                    List.getElem?_eq_none (by simp; omega)] at hsome
                exact Option.noConfusion hsome
              have hsome2 : heap2[i]? = some n := by
                rw [h5other i hil hir, List.getElem?_append_left (by omega)] at hsome
                exact hsome
              by_cases hiL : i < heapL.length
              · have hsomeL : heapL[i]? = some n := by rw [← R4 i hiL]; exact hsome2
                obtain ⟨hiff, hchild⟩ := L5 i n hge hsomeL
                refine ⟨hiff, ?_⟩
                intro c hc
                obtain ⟨hcb, hcl, cn, hcn, hcp⟩ := hchild c hc
                refine ⟨hcb, by omega, cn, ?_, hcp⟩
                rw [h5other c (by omega) (by omega),
                    List.getElem?_append_left (by omega), R4 c (by omega)]
                exact hcn
              · obtain ⟨hiff, hchild⟩ := R5 i n (by omega) hsome2
                refine ⟨hiff, ?_⟩
                intro c hc
                obtain ⟨hcb, hcl, cn, hcn, hcp⟩ := hchild c hc
                refine ⟨by omega, by omega, cn, ?_, hcp⟩
                rw [h5other c (by omega) (by omega),
                    List.getElem?_append_left (by omega)]
                exact hcn

end Binary

namespace Binary

/-- **C9.** Every tree returned by `New` (in the heap model `NewH` that
carries the `Parent` pointers): every node has zero or exactly two children,
each child's `parent` field points back to its parent's address, and the
root's `parent` is nil. -/
theorem claim9_parent_links (H : ByteStr → ByteStr) (data : List ByteStr) :
    HeapInv (NewH H data).2 (NewH H data).1 := by
  cases data with
  | nil =>
    refine ⟨?_, ⟨none, none, none, H []⟩, rfl, rfl⟩
    intro i n hsome
    match i, hsome with
    | 0, hsome =>
      injection hsome with hn
      subst hn
      exact ⟨Iff.rfl, fun c hc => Option.noConfusion hc,
        fun c hc => Option.noConfusion hc⟩
  | cons b bs =>
    obtain ⟨h1, h2, h4, h5, rn, hget, hpar⟩ :=
      subTreeH_spec H (b :: bs).length (b :: bs) [] le_rfl
    refine ⟨?_, rn, hget, hpar⟩
    intro i n hsome
    obtain ⟨hiff, hchild⟩ := h5 i n (Nat.zero_le i) hsome
    refine ⟨hiff, ?_, ?_⟩
    · intro c hc
      obtain ⟨-, -, cn, hcn, hcp⟩ := hchild c (Or.inl hc)
      exact ⟨cn, hcn, hcp⟩
    · intro c hc
      obtain ⟨-, -, cn, hcn, hcp⟩ := hchild c (Or.inr hc)
      exact ⟨cn, hcn, hcp⟩

end Binary

namespace Binary

/-!
## `Pretty` — the ASCII renderer

Transcription of `Pretty` from binary.go. The imperative 2-D byte canvas
becomes a `List (List Char)` threaded through the recursion; the four
closure-captured mutable variables (`canvas`, `maxX`, `minY`, `maxY`) become
a `DrawState`. Coordinates are `Int`, as in Go. Every Go operation that can
panic — indexing `canvas[x][y]`, the slice expressions
`canvas[x][y:y+nodeWidth]`, `canvas[:maxX+1]`, `canvas[i][minY:maxY+1]`,
the string slice `hashString(..)[0:nodeWidth]` and the `branches` index —
is modelled with an explicit bounds check returning `none` for a panic.
`mt == mt.Parent.Left` compares pointers; since every node is a separate
allocation this is exactly "was reached as a left child", passed down as
`pside`. -/

/-- Left depth: both `leftBranchNum` (`for leftRoot := mt.Left; leftRoot != nil`)
and `rightBranchNum` (`for childRoot := mt.Right; childRoot.Left != nil`)
count the same thing, the number of nodes on the left spine below the
argument. -/
def leftDepth : MerkleTree → Nat
  | .lf _ => 0
  | .nd l _ _ => leftDepth l + 1

/-- One lowercase hexadecimal digit. -/
def hexChar (d : Nat) : Char :=
  if d < 10 then Char.ofNat (48 + d) else Char.ofNat (87 + d)

/-- `hex.EncodeToString`: two lowercase hex digits per byte. -/
def hashString : ByteStr → List Char
  | [] => []
  | b :: rest => hexChar (b / 16) :: hexChar (b % 16) :: hashString rest

abbrev Canvas := List (List Char)

/-- The branch-length table. Go fills `branches` with
`branches[0] = nodeWidth/2 + 1` and, for `i ≥ 1`,
`branches[i] = length + i + offset; length += branches[i]`
where `length` starts at `nodeWidth/2 + 1` and is *not* updated at `i = 0`. -/
def mkBranchesAux (offset : Nat) : Nat → Nat → Nat → List Nat
  | _, _, 0 => []
  | len, i, rem + 1 =>
    let b := len + i + offset
    b :: mkBranchesAux offset (len + b) (i + 1) rem

def mkBranches (nodeWidth offset leftBranchNum : Nat) : List Nat :=
  match leftBranchNum with
  | 0 => []
  | n + 1 => (nodeWidth / 2 + 1) :: mkBranchesAux offset (nodeWidth / 2 + 1) 1 n

/-- `canvasMaxHeight := 1` plus `b + 1` per branch level. -/
def canvasMaxHeight (branches : List Nat) : Nat :=
  1 + (branches.map (· + 1)).sum

/-- `canvasMaxWidth := nodeWidth`, reset to `offset*2 - 1` on the first
branch level, plus `(b + 1) * 2` per level. -/
def canvasMaxWidth (nodeWidth offset : Nat) (branches : List Nat) : Nat :=
  match branches with
  | [] => nodeWidth
  | _ => (offset * 2 - 1) + ((branches.map (fun b => (b + 1) * 2)).sum)

/-- `canvas[x][y] = c`, panicking (`none`) out of bounds. -/
def setChar (canvas : Canvas) (x y : Int) (c : Char) : Option Canvas :=
  if 0 ≤ x then
    match canvas[x.toNat]? with
    | none => none
    | some row =>
      if 0 ≤ y ∧ y < (row.length : Int) then
        some (canvas.set x.toNat (row.set y.toNat c))
      else none
  else none

/-- `copy(canvas[x][y:y+w], hashString(h)[0:w])`: both slice expressions
panic out of bounds; the copy itself overwrites `w` characters. -/
def copyHash (canvas : Canvas) (x y : Int) (w : Nat) (hex : List Char) :
    Option Canvas :=
  if 0 ≤ x then
    match canvas[x.toNat]? with
    | none => none
    | some row =>
      if 0 ≤ y ∧ y.toNat + w ≤ row.length ∧ w ≤ hex.length then
        some (canvas.set x.toNat
          (row.take y.toNat ++ hex.take w ++ row.drop (y.toNat + w)))
      else none
  else none

/-- A `/` or `\` diagonal: `n` iterations of
`canvas[cx][cy] = c; cx++; cy += dy`, returning the final `(cx, cy)` —
the Go loops run from `lx = x+1` while `lx ≤ x+length`, i.e. `length`
times. -/
def drawDiag (canvas : Canvas) (cx cy dy : Int) (c : Char) :
    Nat → Option (Canvas × Int × Int)
  | 0 => some (canvas, cx, cy)
  | n + 1 =>
    match setChar canvas cx cy c with
    | none => none
    | some canvas2 => drawDiag canvas2 (cx + 1) (cy + dy) dy c n

/-- The renderer's mutable closure state. -/
structure DrawState where
  canvas : Canvas
  maxX : Int
  minY : Int
  maxY : Int
deriving Repr

/-- The recursive `draw` closure. `pside` is the direction this node was
reached from its parent (`none` at the root): it decides the bounding-box
update and the `(nodeWidth+1)%2` correction applied when the node is a
right child. `ry - (w/2)` is Go's `ry - int(math.Ceil(float64(nodeWidth-1)/2))`
(`⌈(w-1)/2⌉ = w/2` for `w ≥ 0`). -/
def draw (w : Nat) (offset : Int) (branches : List Nat) (t : MerkleTree)
    (pside : Option Dir) (x y : Int) (st : DrawState) : Option DrawState :=
  match copyHash st.canvas x y w (hashString t.hashv) with
  | none => none
  | some canvas1 =>
    let st1 : DrawState :=
      match pside with
      | none => { st with canvas := canvas1 }
      | some .L => { canvas := canvas1, maxX := max st.maxX x,
                     minY := min st.minY y, maxY := st.maxY }
      | some .R => { canvas := canvas1, maxX := st.maxX, minY := st.minY,
                     maxY := max st.maxY (y + (w : Int) - 1) }
    match t with
    | .lf _ => some st1
    | .nd l r _ =>
      match branches[leftDepth r]? with
      | none => none
      | some len =>
        let corr : Int := if pside = some Dir.R then ((w : Int) + 1) % 2 else 0
        match drawDiag st1.canvas (x + 1) (y + offset - 2 + corr) (-1) '/' len with
        | none => none
        | some (canvas2, lx, ly) =>
          match draw w offset branches l (some .L) lx (ly - offset + 1)
              { st1 with canvas := canvas2 } with
          | none => none
          | some st2 =>
            match drawDiag st2.canvas (x + 1) (y + offset + corr) 1 '\\' len with
            | none => none
            | some (canvas3, rx, ry) =>
              draw w offset branches r (some .R) rx (ry - (w / 2 : Nat))
                { st2 with canvas := canvas3 }

/-- `strings.TrimRight(string(c), " ")`. -/
def trimRightSpaces (row : List Char) : List Char :=
  (row.reverse.dropWhile (· = ' ')).reverse

/-- `row[lo:hi]`, panicking (`none`) unless `0 ≤ lo ≤ hi ≤ len(row)`. -/
def sliceRow (row : List Char) (lo hi : Int) : Option (List Char) :=
  if 0 ≤ lo ∧ lo ≤ hi ∧ hi ≤ (row.length : Int) then
    some ((row.take hi.toNat).drop lo.toNat)
  else none

/-- `for i := range canvas { canvas[i] = canvas[i][minY : maxY+1] }`. -/
def sliceRows (lo hi : Int) : Canvas → Option Canvas
  | [] => some []
  | row :: rest =>
    match sliceRow row lo hi, sliceRows lo hi rest with
    | some a, some b => some (a :: b)
    | _, _ => none

/-- `Pretty`. A `none` result models a Go runtime panic; `some lines` is the
returned string slice. The receiver is `Option MerkleTree` so that the nil
receiver of Go is representable. -/
def Pretty (mt : Option MerkleTree) (nodeWidth : Int) : Option (List String) :=
  match mt with
  | none => some []
  | some t =>
    if nodeWidth < 1 then some []
    else
      let w : Nat := nodeWidth.toNat
      let offset : Nat := (w + 1) / 2
      let branches := mkBranches w offset (leftDepth t)
      let hC := canvasMaxHeight branches
      let wC := canvasMaxWidth w offset branches
      let canvas : Canvas := List.replicate hC (List.replicate wC ' ')
      let st0 : DrawState := ⟨canvas, 0, (wC : Int) - 1, 0⟩
      match draw w (offset : Int) branches t none 0 ((wC : Int) / 2 - offset + 1) st0 with
      | none => none
      | some st =>
        if st.maxX + 1 ≤ (st.canvas.length : Int) then
          match sliceRows st.minY (st.maxY + 1) (st.canvas.take (st.maxX + 1).toNat) with
          | none => none
          | some rows => some (rows.map (fun r => String.mk (trimRightSpaces r)))
        else none

end Binary

namespace Binary

theorem pretty_leaf_w1 (h0 : Nat) (hrest : ByteStr)
    (hne : hexChar (h0 / 16) ≠ ' ') :
    Pretty (some (.lf (h0 :: hrest))) 1 = some [String.mk [hexChar (h0 / 16)]] := by
  simp [Pretty, leftDepth, mkBranches, canvasMaxHeight, canvasMaxWidth,
    List.replicate, draw, copyHash, MerkleTree.hashv, hashString, sliceRows,
    sliceRow, trimRightSpaces, hne]

theorem pretty_leaf_w2_panic (hsh : ByteStr) :
    Pretty (some (.lf hsh)) 2 = none := by
  simp [Pretty, leftDepth, mkBranches, canvasMaxHeight, canvasMaxWidth,
    List.replicate, draw, copyHash, MerkleTree.hashv]

end Binary

namespace Binary

theorem pretty_pair_w2 (a0 b0 r0 : Nat) (ar br rr : ByteStr)
    (hb1 : hexChar (b0 % 16) ≠ ' ') (hr1 : hexChar (r0 % 16) ≠ ' ') :
    Pretty (some (.nd (.lf (a0 :: ar)) (.lf (b0 :: br)) (r0 :: rr))) 2 =
      some [String.mk [' ', ' ', ' ', hexChar (r0 / 16), hexChar (r0 % 16)],
            "  / \\",
            " /   \\",
            String.mk [hexChar (a0 / 16), hexChar (a0 % 16), ' ', ' ', ' ',
              hexChar (b0 / 16), hexChar (b0 % 16)]] := by
  simp [Pretty, leftDepth, mkBranches, canvasMaxHeight, canvasMaxWidth,
    List.replicate, draw, copyHash, MerkleTree.hashv, hashString, sliceRows,
    sliceRow, trimRightSpaces, hb1, hr1, drawDiag, setChar, mkBranchesAux,
    List.set]

end Binary

namespace Binary

/-- **C7** (the code refutes the safety part). The degenerate inputs do
return an empty result — a nil receiver, or `nodeWidth < 1` — but `Pretty`
is *not* total on trees built by `New`: on the single-block tree `New [a]`
with `nodeWidth = 2` it evaluates the slice expression `canvas[0][1:3]` on a
row of length 2 and panics (`none`), so an operation *is* fatal to the
process, contradicting the claim. -/
theorem claim7_pretty_panics_on_single_leaf (H : ByteStr → ByteStr) (a : ByteStr) :
    (∀ (t : Option MerkleTree) (w : Int), w < 1 → Pretty t w = some []) ∧
    Pretty (some (New H [a])) 2 = none := by
  constructor
  · intro t w hw
    cases t with
    | none => rfl
    | some t => simp [Pretty, hw]
  · have h1 : New H [a] = .lf (H a) := by
      rw [New_eq_subTree H (by simp), subTree]
      simp
    rw [h1]
    exact pretty_leaf_w2_panic (H a)

/-- Witness for C7's hypothesis-bearing conjunct at `w = -1`. -/
theorem claim7_pretty_panics_on_single_leaf_witness :
    ((-1 : Int) < 1) ∧ Pretty none (-1) = some [] :=
  ⟨by decide, (claim7_pretty_panics_on_single_leaf id [0]).1 none (-1) (by decide)⟩

/-- **C8.** Each node is rendered as the first `nodeWidth` characters of the
lowercase hex encoding of its hash: `Pretty 1` on `New [a]` is the single
line holding the first hex character of `H a`, and `Pretty 2` on `New [a,b]`
is exactly the canonical four-line two-leaf layout (label row, two branch
rows, leaf row). The hypotheses are the SHA-256 output format: 32 bytes,
each below 256. -/
theorem claim8_pretty_rendering (H : ByteStr → ByteStr) (a b : ByteStr)
    (hlen : ∀ x, (H x).length = 32) (hbyte : ∀ x, ∀ v ∈ H x, v < 256) :
    Pretty (some (New H [a])) 1 = some [String.mk ((hashString (H a)).take 1)] ∧
    Pretty (some (New H [a, b])) 2 =
      some [String.mk ([' ', ' ', ' '] ++ (hashString (H (H a ++ H b))).take 2),
            "  / \\",
            " /   \\",
            String.mk ((hashString (H a)).take 2 ++ [' ', ' ', ' '] ++
              (hashString (H b)).take 2)] := by
  have hdec : ∀ x : ByteStr, ∃ v rest, H x = v :: rest ∧ v < 256 := by
    intro x
    cases hx : H x with
    | nil =>
      have := hlen x
      rw [hx] at this
      simp at this
    | cons v rest =>
      exact ⟨v, rest, rfl, hbyte x v (hx ▸ List.mem_cons_self v rest)⟩
  have hhex : ∀ d : Nat, d < 16 → hexChar d ≠ ' ' := by decide
  have hNew1 : New H [a] = .lf (H a) := by
    rw [New_eq_subTree H (by simp), subTree]
    simp
  have hNew2 : New H [a, b] = .nd (.lf (H a)) (.lf (H b)) (H (H a ++ H b)) := by
    simp [New, subTree, splitPoint, Nat.log2, MerkleTree.hashv, List.take]
  obtain ⟨a0, ar, ha, ha0⟩ := hdec a
  obtain ⟨b0, br, hb, hb0⟩ := hdec b
  obtain ⟨r0, rr, hr, hr0⟩ := hdec (H a ++ H b)
  constructor
  · rw [hNew1, ha, pretty_leaf_w1 a0 ar (hhex _ (by omega))]
    simp [hashString]
  · rw [hNew2, hr, ha, hb,
      pretty_pair_w2 a0 b0 r0 ar br rr (hhex _ (by omega)) (hhex _ (by omega))]
    simp [hashString]

/-- A concrete 32-byte constant hash function used in witnesses. -/
def constH (_ : ByteStr) : ByteStr := List.replicate 32 0

/-- Witness for C8 at `H = constH`, `a = [1]`, `b = [2]`. -/
theorem claim8_pretty_rendering_witness :
    ((∀ x : ByteStr, (constH x).length = 32) ∧
     (∀ x : ByteStr, ∀ v ∈ constH x, v < 256)) ∧
    Pretty (some (New constH [[1]])) 1 =
      some [String.mk ((hashString (constH [1])).take 1)] :=
  ⟨⟨fun _ => by simp [constH],
    fun x v hv => by
      simp [constH, List.mem_replicate] at hv
      omega⟩,
   (claim8_pretty_rendering constH [1] [2]
      (fun _ => by simp [constH])
      (fun x v hv => by
        simp [constH, List.mem_replicate] at hv
        omega)).1⟩

end Binary
